import Mathlib

/-!
Verification of the checkers engine core: a shallow embedding of the
bitboard position model, the legal-move generator (mandatory capture and
multi-jump expansion), make/unmake, the static evaluator of
`src/intelligence_i.hpp`, the search score constants of
`src/intelligence.hpp`, and the match-runner logic of `src/runer.cpp`.

Bitboards are 32-bit words embedded as `Nat`; each bit indexes one of the
32 dark squares (internal numbering 0..31, row by row from black's side;
user-facing square `n` is internal `n - 1`).  Source files `board.hpp`,
`board.cpp`, `bitboard.hpp` and `intelligence.cpp` of this repository are
not under `src/`; the definitions that embed them are modelled from the
specification and say so in their doc comments.
-/

namespace Checkers

/-- Single-bit bitboard holding internal square `n`. -/
def sq (n : Nat) : Nat := 2 ^ n

/-- Bitwise difference: clears from `x` every bit set in `m`
(`x & ~m` of the C++, written without a word-size complement). -/
def bdiff (x m : Nat) : Nat := x ^^^ (x &&& m)

/-- Modelled from the spec: row (rank) of an internal square in the
packed-32 layout, rows counted from black's side (`bitboard.hpp` missing). -/
def coordY (s : Nat) : Nat := s / 4

/-- Modelled from the spec: file (column 0..7) of an internal square; rows
alternate offset parity in the packed-32 layout (`bitboard.hpp` missing). -/
def coordX (s : Nat) : Nat := 2 * (s % 4) + coordY s % 2

/-- Modelled from the spec: internal square at row `y`, column `x`
(only meaningful on dark squares, where `x % 2 = y % 2`). -/
def squareOf (y x : Nat) : Nat := 4 * y + x / 2

/-- Modelled from the spec: the square one diagonal step from `s` in
direction `(dy, dx)`, or `none` when the step falls off the board.  The
four instances `(±1, ±1)` are the LF/RF/LB/RB geometry of `bitboard.hpp`
(missing from `src/`). -/
def neigh (s : Nat) (dy dx : Int) : Option Nat :=
  let y : Int := (coordY s : Int) + dy
  let x : Int := (coordX s : Int) + dx
  if 0 ≤ y ∧ y < 8 ∧ 0 ≤ x ∧ x < 8 then some (squareOf y.toNat x.toNat)
  else none

/-- Modelled from the spec: diagonal directions available to a piece; a
man moves forward only (black forward is `+1` row, white `-1`), a king in
all four diagonals (`board.cpp` missing). -/
def dirs (blackSide isKing : Bool) : List (Int × Int) :=
  if isKing then [(1, -1), (1, 1), (-1, -1), (-1, 1)]
  else if blackSide then [(1, -1), (1, 1)]
  else [(-1, -1), (-1, 1)]

/-- Modelled from the spec: the crowning row of the given side — black
men crown on the far row (internal squares 28..31), white men on squares
0..3 (`bitboard.hpp` missing). -/
def onCrowningRow (blackSide : Bool) (s : Nat) : Bool :=
  if blackSide then decide (28 ≤ s) else decide (s < 4)

/-- The move value of `src/move.hpp`: origin bit, destination bit,
capture mask, captured-a-king flag, will-crown flag. -/
structure Move where
  orig : Nat
  dest : Nat
  capture : Nat
  will_capture_a_king : Bool
  will_crown : Bool
deriving Repr, DecidableEq

/-- The position state of `board.hpp` (missing from `src/`), modelled
from the spec: four bitboards (kings ⊆ pieces of the same colour) and the
side to move. -/
structure Board where
  black : Nat
  white : Nat
  blackKings : Nat
  whiteKings : Nat
  blackToMove : Bool
deriving Repr, DecidableEq

/-- Occupied squares: union of both colours. -/
def occupied (b : Board) : Nat := b.black ||| b.white

/-- Pieces of the side to move. -/
def moverPieces (b : Board) : Nat := if b.blackToMove then b.black else b.white

/-- Pieces of the side not moving. -/
def enemyPieces (b : Board) : Nat := if b.blackToMove then b.white else b.black

/-- Kings of the side to move. -/
def moverKings (b : Board) : Nat :=
  if b.blackToMove then b.blackKings else b.whiteKings

/-- Kings of the side not moving. -/
def enemyKings (b : Board) : Nat :=
  if b.blackToMove then b.whiteKings else b.blackKings

/-- Modelled from the spec: a square is logically empty during a jump
sequence when it is empty on the board or held an enemy piece already
jumped in the same sequence (captured pieces block no further jumps). -/
def emptyDuring (b : Board) (removed t : Nat) : Bool :=
  !(occupied b).testBit t || removed.testBit t

/-- Modelled from the spec: a single jump step for the side to move from
square `s` in direction `d`.  Legal iff the adjacent square holds a
not-yet-captured enemy piece and the square beyond is logically empty;
returns the captured square and the landing square (`board.cpp` missing). -/
def jumpStep (b : Board) (removed s : Nat) (d : Int × Int) : Option (Nat × Nat) :=
  match neigh s d.1 d.2 with
  | none => none
  | some e =>
    match neigh e d.1 d.2 with
    | none => none
    | some t =>
      if (enemyPieces b).testBit e && !removed.testBit e && emptyDuring b removed t
      then some (e, t) else none

/-- Modelled from the spec: all immediate jumps of the side to move from
square `s`, given the enemy squares already captured in this sequence. -/
def immJumps (b : Board) (removed s : Nat) (isKing : Bool) : List (Nat × Nat) :=
  (dirs b.blackToMove isKing).filterMap (jumpStep b removed s)

/-- Modelled from the spec: the move value recording a completed jump
sequence from `orig` ending on `s` with capture mask `removed`; the
captured-a-king flag is set when any captured square held an enemy king,
will-crown when a man ends on its crowning row. -/
def mkJumpMove (b : Board) (isKing : Bool) (orig s removed : Nat) : Move :=
  ⟨sq orig, sq s, removed, (enemyKings b &&& removed) != 0,
    !isKing && onCrowningRow b.blackToMove s⟩

/-- Modelled from the spec: multi-jump expansion.  From the current
square enumerate immediate jumps; when none remain and something was
captured, emit the maximal sequence as one move; a man landing on its
crowning row ends the sequence immediately.  `fuel` bounds the recursion
(each step captures a fresh enemy piece, so 33 is never exhausted). -/
def expandJumps (b : Board) (isKing : Bool) (orig : Nat) :
    Nat → Nat → Nat → List Move
  | 0, s, removed =>
    if removed != 0 then [mkJumpMove b isKing orig s removed] else []
  | fuel + 1, s, removed =>
    let js := immJumps b removed s isKing
    if js.isEmpty then
      (if removed != 0 then [mkJumpMove b isKing orig s removed] else [])
    else
      js.flatMap fun et =>
        if !isKing && onCrowningRow b.blackToMove et.2 then
          [mkJumpMove b isKing orig et.2 (removed ||| sq et.1)]
        else
          expandJumps b isKing orig fuel et.2 (removed ||| sq et.1)

/-- The 32 internal square numbers. -/
def squares : List Nat := List.range 32

/-- Modelled from the spec: a jumper is a piece of the side to move with
at least one legal immediate jump. -/
def isJumper (b : Board) (s : Nat) : Bool :=
  (moverPieces b).testBit s && !(immJumps b 0 s ((moverKings b).testBit s)).isEmpty

/-- Modelled from the spec: the bitboard of jumpers of the side to move. -/
def jumpers (b : Board) : Nat :=
  (squares.filter (isJumper b)).foldr (fun s acc => sq s ||| acc) 0

/-- The side to move has at least one legal jump. -/
def hasJump (b : Board) : Bool := jumpers b != 0

/-- Modelled from the spec: phase J of the generator — one move per
maximal jump sequence, from every jumper. -/
def jumpMoves (b : Board) : List Move :=
  (squares.filter (isJumper b)).flatMap fun s =>
    expandJumps b ((moverKings b).testBit s) s 33 s 0

/-- Modelled from the spec: phase S of the generator — one-step diagonal
slides of the side to move to empty squares, men forward only, kings in
all four diagonals; will-crown iff a man lands on its crowning row. -/
def slideMoves (b : Board) : List Move :=
  squares.flatMap fun s =>
    if (moverPieces b).testBit s then
      (dirs b.blackToMove ((moverKings b).testBit s)).filterMap fun d =>
        match neigh s d.1 d.2 with
        | none => none
        | some t =>
          if !(occupied b).testBit t then
            some ⟨sq s, sq t, 0, false,
              !((moverKings b).testBit s) && onCrowningRow b.blackToMove t⟩
          else none
    else []

/-- Modelled from the spec: the legal-move generator.  Phase S runs only
when phase J produced nothing (mandatory capture). -/
def generateMoves (b : Board) : List Move :=
  let jm := jumpMoves b
  if jm.isEmpty then slideMoves b else jm

/-- Modelled from the spec: the moving colour's kings after a move — if
will-crown, set the destination bit; if the origin was a king, clear the
origin bit and set the destination bit. -/
def makeKings (k orig dest : Nat) (cr : Bool) : Nat :=
  let k1 := if cr then k ||| dest else k
  if (k &&& orig) != 0 then bdiff k1 orig ||| dest else k1

/-- Modelled from the spec: reverse of `makeKings` — crowning is
reversed when will-crown is set; otherwise a king on the destination is
moved back to the origin. -/
def unmakeKings (k orig dest : Nat) (cr : Bool) : Nat :=
  if cr then bdiff k dest
  else if (k &&& dest) != 0 then bdiff k dest ||| orig
  else k

/-- Modelled from the spec: `board::make` (`board.cpp` missing from
`src/`) — remove the origin bit from the moving colour, add the
destination bit; XOR the capture mask out of the opposing colour and the
opposing kings; update the moving colour's kings; flip the side. -/
def makeMove (b : Board) (m : Move) : Board :=
  if b.blackToMove then
    { black := bdiff b.black m.orig ||| m.dest
      white := b.white ^^^ m.capture
      blackKings := makeKings b.blackKings m.orig m.dest m.will_crown
      whiteKings := b.whiteKings ^^^ m.capture
      blackToMove := false }
  else
    { black := b.black ^^^ m.capture
      white := bdiff b.white m.orig ||| m.dest
      blackKings := b.blackKings ^^^ m.capture
      whiteKings := makeKings b.whiteKings m.orig m.dest m.will_crown
      blackToMove := true }

/-- Modelled from the spec: `board::unmake` (`board.cpp` missing from
`src/`) — reverse of `makeMove` for the side that just moved: put the
moved piece back, XOR the capture mask back into the opposing colour and
kings, reverse the king update, flip the side. -/
def unmakeMove (b : Board) (m : Move) : Board :=
  if !b.blackToMove then
    { black := bdiff b.black m.dest ||| m.orig
      white := b.white ^^^ m.capture
      blackKings := unmakeKings b.blackKings m.orig m.dest m.will_crown
      whiteKings := b.whiteKings ^^^ m.capture
      blackToMove := true }
  else
    { black := b.black ^^^ m.capture
      white := bdiff b.white m.dest ||| m.orig
      blackKings := b.blackKings ^^^ m.capture
      whiteKings := unmakeKings b.whiteKings m.orig m.dest m.will_crown
      blackToMove := false }

/-- The board invariants of spec §3: disjoint colours and each colour's
kings a subset of that colour's pieces. -/
def Board.inv (b : Board) : Prop :=
  b.black &&& b.white = 0 ∧
  b.blackKings &&& b.black = b.blackKings ∧
  b.whiteKings &&& b.white = b.whiteKings

instance (b : Board) : Decidable b.inv := by
  unfold Board.inv; infer_instance

/-! ## Evaluator (`src/intelligence_i.hpp`) -/

/-- Population count of a 32-bit bitboard (`bitboard::bit_count`,
`bitboard.hpp` missing from `src/`). -/
def bit_count (n : Nat) : Nat := (squares.filter n.testBit).length

/-- `board::is_black_move` — whether black is the side to move. -/
def is_black_move (b : Board) : Bool := b.blackToMove

/-- Modelled from the spec: `bitboard::BLACK_KINGS_ROW`, the row where
black men crown (internal squares 28..31; `bitboard.hpp` missing). -/
def BLACK_KINGS_ROW : Nat := 0xf0000000

/-- Modelled from the spec: `bitboard::WHITE_KINGS_ROW`, the row where
white men crown (internal squares 0..3; `bitboard.hpp` missing). -/
def WHITE_KINGS_ROW : Nat := 0xf

/-- Modelled from the spec: `bitboard::EDGES` — the squares on the side
columns or the top/bottom rows (`bitboard.hpp` missing). -/
def EDGES : Nat :=
  (squares.filter fun s =>
    decide (coordY s = 0) || decide (coordY s = 7) ||
    decide (coordX s = 0) || decide (coordX s = 7)).foldr
    (fun s acc => sq s ||| acc) 0

/-- Modelled from the spec: `board::get_black_movers` — black pieces with
at least one immediate legal non-capture step (men forward only, kings in
all four diagonals; `board.cpp` missing from `src/`). -/
def get_black_movers (b : Board) : Nat :=
  (squares.filter fun s =>
    b.black.testBit s &&
    (dirs true (b.blackKings.testBit s)).any fun d =>
      match neigh s d.1 d.2 with
      | none => false
      | some t => !(occupied b).testBit t).foldr (fun s acc => sq s ||| acc) 0

/-- Modelled from the spec: `board::get_white_movers`, mirror of
`get_black_movers`. -/
def get_white_movers (b : Board) : Nat :=
  (squares.filter fun s =>
    b.white.testBit s &&
    (dirs false (b.whiteKings.testBit s)).any fun d =>
      match neigh s d.1 d.2 with
      | none => false
      | some t => !(occupied b).testBit t).foldr (fun s acc => sq s ||| acc) 0

/-- `intelligence::evaluate_pieces_strength` of `src/intelligence_i.hpp`:
piece-count difference plus king-count difference, from the side to
move's perspective. -/
def evaluate_pieces_strength (b : Board) : Int :=
  if is_black_move b then
    ((bit_count b.black : Int) - bit_count b.white) +
      ((bit_count b.blackKings : Int) - bit_count b.whiteKings)
  else
    ((bit_count b.white : Int) - bit_count b.black) +
      ((bit_count b.whiteKings : Int) - bit_count b.blackKings)

/-- `intelligence::evaluate_movers` of `src/intelligence_i.hpp`. -/
def evaluate_movers (b : Board) : Int :=
  if is_black_move b then
    (bit_count (get_black_movers b) : Int) - bit_count (get_white_movers b)
  else
    (bit_count (get_white_movers b) : Int) - bit_count (get_black_movers b)

/-- `intelligence::evaluate_kings_row` of `src/intelligence_i.hpp`: own
pieces parked on the opponent's crowning row, minus the converse. -/
def evaluate_kings_row (b : Board) : Int :=
  if is_black_move b then
    (bit_count (b.black &&& WHITE_KINGS_ROW) : Int) -
      bit_count (b.white &&& BLACK_KINGS_ROW)
  else
    (bit_count (b.white &&& BLACK_KINGS_ROW) : Int) -
      bit_count (b.black &&& WHITE_KINGS_ROW)

/-- `intelligence::evaluate_edges` of `src/intelligence_i.hpp`. -/
def evaluate_edges (b : Board) : Int :=
  if is_black_move b then
    (bit_count (b.black &&& EDGES) : Int) - bit_count (b.white &&& EDGES)
  else
    (bit_count (b.white &&& EDGES) : Int) - bit_count (b.black &&& EDGES)

/-- `intelligence::evaluate` of `src/intelligence_i.hpp`: the weighted
sum of the four features. -/
def evaluate (b : Board) : Int :=
  evaluate_pieces_strength b * 256 + evaluate_movers b * 2 +
    evaluate_kings_row b * 16 + evaluate_edges b * 8

/-! ## Search constants (`src/intelligence.hpp`) and think
(`intelligence.cpp` missing from `src/`) -/

/-- `INT_MAX` on the 32-bit int of the target platform. -/
def INT_MAX : Int := 2147483647

/-- `INT_MIN` on the 32-bit int of the target platform. -/
def INT_MIN : Int := -2147483648

/-- `intelligence::TIMEOUT = INT_MIN` (`src/intelligence.hpp` line 68). -/
def TIMEOUT : Int := INT_MIN

/-- `intelligence::INFINITY = INT_MAX` (`src/intelligence.hpp` line 69). -/
def INFINITY : Int := INT_MAX

/-- `intelligence::WIN = 65535` (`src/intelligence.hpp` line 70). -/
def WIN : Int := 65535

/-- Modelled from the spec: outcome of one alpha-beta iteration of
`intelligence::think` (`intelligence.cpp` missing from `src/`): either
the iteration ran to completion with a score and a principal variation,
or it hit the deadline leaving only a partially searched line. -/
inductive AbOutcome
| done (score : Int) (pv : List Move)
| tout (partialPv : List Move)

/-- Modelled from the spec: the iterative-deepening loop of
`intelligence::think` — run the iterations in order; a completed
iteration's result supersedes the accumulator; on timeout the current
iteration is abandoned and the accumulator is returned unchanged. -/
def thinkLoop (f : Nat → AbOutcome) :
    List Nat → Int × List Move → Int × List Move
  | [], acc => acc
  | d :: ds, acc =>
    match f d with
    | .tout _ => acc
    | .done sc pv => thinkLoop f ds (sc, pv)

/-- Modelled from the spec: `intelligence::think` runs iterative
deepening from depth 1 up to the depth limit. -/
def think (f : Nat → AbOutcome) (depth_limit : Nat) (init : Int × List Move) :
    Int × List Move :=
  thinkLoop f (List.range' 1 depth_limit) init

/-! ## Runner (`src/runer.cpp`) and engine facade (`src/engine.hpp`) -/

/-- `engine::UNLIMITED = 999999` (`src/engine.hpp` line 97). -/
def UNLIMITED : Int := 999999

/-- The `--depth` validation of `src/runer.cpp` lines 47-61: a parsed
depth below 0 or above 999 makes the runner exit with code 255, any
other value is kept. -/
def runnerCheckDepth (d : Int) : Except Nat Int :=
  if d < 0 ∨ d > 999 then .error 255 else .ok d

/-- `moves_limit = 299` of `src/runer.cpp` line 24. -/
def moves_limit : Nat := 299

/-- C++ `std::string::substr(pos, len)` on a character list: at most
`len` characters starting at `pos`; out of range when `pos` exceeds the
length. -/
def cppSubstr (s : List Char) (pos len : Nat) : Option (List Char) :=
  if pos ≤ s.length then some ((s.drop pos).take len) else none

/-- The `case 'm'` branch of the runner relay loop (`src/runer.cpp`
lines 99-115 and 132-148): extract `line.substr(5, 4)`, forward it to
the opposing engine, bump the relayed-move counter, and when the counter
exceeds `moves_limit` print the draw RESULT line and exit with code 0.
Returns the forwarded token, the new counter, and the terminating output
line with its exit code when the game ends. -/
def runnerMoveBranch (line : List Char) (moves : Nat) :
    Option (List Char × Nat × Option (String × Nat)) :=
  (cppSubstr line 5 4).map fun mv =>
    (mv, moves + 1,
      if moves + 1 > moves_limit then some ("RESULT 1/2-1/2 {Draw}", 0)
      else none)

/-! ## Per-side raw feature values, for stating the evaluator claims -/

/-- Raw pieces-strength value of one side: piece count plus king count. -/
def piecesStrengthOf (b : Board) (blackSide : Bool) : Int :=
  if blackSide then (bit_count b.black : Int) + bit_count b.blackKings
  else (bit_count b.white : Int) + bit_count b.whiteKings

/-- Raw movers value of one side. -/
def moversOf (b : Board) (blackSide : Bool) : Int :=
  if blackSide then (bit_count (get_black_movers b) : Int)
  else (bit_count (get_white_movers b) : Int)

/-- Raw kings-row value of one side: its pieces on the opponent's
crowning row. -/
def kingsRowOf (b : Board) (blackSide : Bool) : Int :=
  if blackSide then (bit_count (b.black &&& WHITE_KINGS_ROW) : Int)
  else (bit_count (b.white &&& BLACK_KINGS_ROW) : Int)

/-- Raw edges value of one side. -/
def edgesOf (b : Board) (blackSide : Bool) : Int :=
  if blackSide then (bit_count (b.black &&& EDGES) : Int)
  else (bit_count (b.white &&& EDGES) : Int)

/-- Score of one side counting 1 per man and 2 per king (a side's men
are its pieces that are not kings). -/
def manKingScore (b : Board) (blackSide : Bool) : Int :=
  if blackSide then
    (bit_count (bdiff b.black b.blackKings) : Int) + 2 * bit_count b.blackKings
  else
    (bit_count (bdiff b.white b.whiteKings) : Int) + 2 * bit_count b.whiteKings

/-! ## Bit-level helper lemmas -/

theorem testBit_bdiff (x m i : Nat) :
    (bdiff x m).testBit i = (x.testBit i && !(m.testBit i)) := by
  simp only [bdiff, Nat.testBit_xor, Nat.testBit_land]
  cases x.testBit i <;> cases m.testBit i <;> rfl

theorem testBit_sq (s i : Nat) : (sq s).testBit i = decide (s = i) := by
  simp [sq, Nat.testBit_two_pow]

theorem sq_ne_zero (s : Nat) : sq s ≠ 0 := by
  intro h
  have h2 := congrArg (fun n => n.testBit s) h
  simp [testBit_sq] at h2

theorem or_sq_ne_zero (x s : Nat) : x ||| sq s ≠ 0 := by
  intro h
  have h2 := congrArg (fun n => n.testBit s) h
  simp [Nat.testBit_lor, testBit_sq] at h2

theorem land_sq_ne_zero_iff (k s : Nat) :
    (k &&& sq s) ≠ 0 ↔ k.testBit s = true := by
  constructor
  · intro h
    by_contra hk
    apply h
    apply Nat.eq_of_testBit_eq
    intro i
    simp only [Nat.testBit_land, testBit_sq, Nat.zero_testBit]
    by_cases hi : s = i
    · subst hi
      simp [Bool.eq_false_iff.mpr hk]
    · simp [hi]
  · intro h hz
    have h2 := congrArg (fun n => n.testBit s) hz
    simp [Nat.testBit_land, testBit_sq, h] at h2

theorem sub_testBit (a e i : Nat) (h : a &&& e = a) (hi : a.testBit i = true) :
    e.testBit i = true := by
  have h2 := congrArg (fun n => n.testBit i) h
  simp only [Nat.testBit_land] at h2
  rw [hi] at h2
  cases he : e.testBit i
  · rw [he] at h2; simp at h2
  · rfl

theorem sub_or_single (a e x : Nat) (h : a &&& e = a) (hx : e.testBit x = true) :
    (a ||| sq x) &&& e = a ||| sq x := by
  apply Nat.eq_of_testBit_eq
  intro i
  simp only [Nat.testBit_land, Nat.testBit_lor, testBit_sq]
  by_cases hax : a.testBit i
  · simp [hax, sub_testBit a e i h hax]
  · by_cases hxi : x = i
    · subst hxi
      simp [hax, hx]
    · simp [hax, hxi]

theorem xor_xor_cancel (w c : Nat) : (w ^^^ c) ^^^ c = w := by
  rw [Nat.xor_assoc, Nat.xor_self, Nat.xor_zero]

/-- Splitting a filtered count by a second predicate. -/
theorem filter_length_split (l : List Nat) (P Q : Nat → Bool) :
    (l.filter P).length =
      (l.filter fun a => P a && Q a).length +
        (l.filter fun a => P a && !(Q a)).length := by
  induction l with
  | nil => simp
  | cons a t ih =>
    by_cases hP : P a <;> by_cases hQ : Q a <;>
      simp [List.filter_cons, hP, hQ, ih] <;> omega

/-- Popcount of a set splits over a subset and its relative complement. -/
theorem bit_count_subset_split (p k : Nat) (h : k &&& p = k) :
    bit_count p = bit_count (bdiff p k) + bit_count k := by
  unfold bit_count
  have e1 : squares.filter (fun a => p.testBit a && k.testBit a) =
      squares.filter k.testBit := by
    apply List.filter_congr
    intro x _
    cases hk : k.testBit x
    · simp
    · simp [hk, sub_testBit k p x h hk]
  have e2 : squares.filter (fun a => p.testBit a && !(k.testBit a)) =
      squares.filter (bdiff p k).testBit := by
    apply List.filter_congr
    intro x _
    rw [testBit_bdiff]
  have e3 := filter_length_split squares p.testBit k.testBit
  rw [e1, e2] at e3
  omega

/-! ## Claim theorems: evaluator, score encoding, think, runner -/

/-- C3: for every board position, `evaluate` returns exactly
`pieces_strength * 256 + movers * 2 + kings_row * 16 + edges * 8`, where
each of the four features is the side-to-move's raw feature value minus
the opposing side's raw feature value. -/
theorem evaluate_weighted_sum (b : Board) :
    evaluate b =
      (piecesStrengthOf b b.blackToMove -
        piecesStrengthOf b (!b.blackToMove)) * 256 +
      (moversOf b b.blackToMove - moversOf b (!b.blackToMove)) * 2 +
      (kingsRowOf b b.blackToMove - kingsRowOf b (!b.blackToMove)) * 16 +
      (edgesOf b b.blackToMove - edgesOf b (!b.blackToMove)) * 8 := by
  cases h : b.blackToMove <;>
    simp [evaluate, evaluate_pieces_strength, evaluate_movers,
      evaluate_kings_row, evaluate_edges, piecesStrengthOf, moversOf,
      kingsRowOf, edgesOf, is_black_move, h] <;>
    ring

/-- C4: under the invariant that each colour's kings are a subset of that
colour's pieces, the pieces-strength feature scores 1 per man and 2 per
king for each side: it equals the side to move's man-king score minus the
opponent's. -/
theorem pieces_strength_man_king (b : Board)
    (hb : b.blackKings &&& b.black = b.blackKings)
    (hw : b.whiteKings &&& b.white = b.whiteKings) :
    evaluate_pieces_strength b =
      manKingScore b b.blackToMove - manKingScore b (!b.blackToMove) := by
  have h1 := bit_count_subset_split b.black b.blackKings hb
  have h2 := bit_count_subset_split b.white b.whiteKings hw
  cases h : b.blackToMove <;>
    simp [evaluate_pieces_strength, manKingScore, is_black_move, h, h1, h2] <;>
    ring

theorem pieces_strength_man_king_witness :
    ((sq 0 : Nat) &&& (sq 0 ||| sq 5) = sq 0) ∧
    ((0 : Nat) &&& sq 20 = 0) ∧
    evaluate_pieces_strength ⟨sq 0 ||| sq 5, sq 20, sq 0, 0, true⟩ =
      manKingScore ⟨sq 0 ||| sq 5, sq 20, sq 0, 0, true⟩ true -
        manKingScore ⟨sq 0 ||| sq 5, sq 20, sq 0, 0, true⟩ (!true) :=
  ⟨by decide, by decide,
    pieces_strength_man_king ⟨sq 0 ||| sq 5, sq 20, sq 0, 0, true⟩
      (by decide) (by decide)⟩

/-- C5: the iterative-deepening loop never returns a partially searched
iteration's line — the value returned by `think` is either the initial
accumulator (first iteration already timed out, or zero depth limit) or
the result of an iteration that ran to completion. -/
theorem think_returns_completed_iteration (f : Nat → AbOutcome)
    (depth_limit : Nat) (init : Int × List Move) :
    think f depth_limit init = init ∨
    ∃ d ∈ List.range' 1 depth_limit,
      f d = .done (think f depth_limit init).1
        (think f depth_limit init).2 := by
  unfold think
  generalize List.range' 1 depth_limit = l
  induction l generalizing init with
  | nil => left; rfl
  | cons d ds ih =>
    cases hf : f d with
    | tout p =>
      left
      simp [thinkLoop, hf]
    | done sc pv =>
      have hred : thinkLoop f (d :: ds) init = thinkLoop f ds (sc, pv) := by
        simp [thinkLoop, hf]
      rcases ih (sc, pv) with h | ⟨d', hd', he⟩
      · right
        refine ⟨d, by simp, ?_⟩
        rw [hred, h, ← hf]
      · right
        refine ⟨d', by simp [hd'], ?_⟩
        rw [hred]
        exact he

/-- C6: the search's score encoding uses `INFINITY = INT_MAX` and
`WIN = 65535`, and the `TIMEOUT` sentinel is distinct from every score in
the interval `[-INFINITY, INFINITY]`. -/
theorem score_encoding_sentinel :
    WIN = 65535 ∧ INFINITY = INT_MAX ∧
    ∀ s : Int, -INFINITY ≤ s → s ≤ INFINITY → s ≠ TIMEOUT := by
  refine ⟨rfl, rfl, ?_⟩
  intro s h1 h2
  simp only [INFINITY, INT_MAX, TIMEOUT, INT_MIN] at *
  omega

theorem score_encoding_sentinel_witness :
    (-INFINITY ≤ (0 : Int)) ∧ ((0 : Int) ≤ INFINITY) ∧ (0 : Int) ≠ TIMEOUT :=
  ⟨by decide, by decide,
    score_encoding_sentinel.2.2 0 (by decide) (by decide)⟩

/-- C7: the material component is antisymmetric in the side to move —
for a fixed placement, the pieces-strength feature with black to move is
the negation of the feature with white to move. -/
theorem pieces_strength_antisymmetric (bb ww bk wk : Nat) :
    evaluate_pieces_strength ⟨bb, ww, bk, wk, true⟩ =
      - evaluate_pieces_strength ⟨bb, ww, bk, wk, false⟩ := by
  simp [evaluate_pieces_strength, is_black_move]
  ring

/-- C8 counterexample: the runner accepts a `--depth` of 0, which does
not lie between 1 and 999 inclusive. -/
theorem depth_zero_accepted :
    runnerCheckDepth 0 = .ok 0 ∧ ¬(1 ≤ (0 : Int)) := by
  constructor
  · rfl
  · decide

/-- C8 amended: every accepted search depth lies between 0 and 999
inclusive; a depth outside that range makes the runner exit with code
255; and the caller's "unlimited" depth sentinel is the finite integer
999999. -/
theorem runner_depth_range (d : Int) :
    runnerCheckDepth d =
      (if 0 ≤ d ∧ d ≤ 999 then .ok d else .error 255) ∧
    UNLIMITED = 999999 := by
  refine ⟨?_, rfl⟩
  by_cases h : 0 ≤ d ∧ d ≤ 999
  · have h2 : ¬(d < 0 ∨ d > 999) := by omega
    simp [runnerCheckDepth, h, h2]
  · have h2 : d < 0 ∨ d > 999 := by omega
    simp [runnerCheckDepth, h, h2]

/-- C9: the runner caps total plies — as soon as the count of relayed
moves exceeds the move limit of 299, the `m`-line branch prints
`RESULT 1/2-1/2 {Draw}` and terminates with exit code 0. -/
theorem runner_draw_cap (line : List Char) (moves : Nat)
    (h5 : 5 ≤ line.length) (hm : moves_limit ≤ moves) :
    runnerMoveBranch line moves =
      some ((line.drop 5).take 4, moves + 1,
        some ("RESULT 1/2-1/2 {Draw}", 0)) := by
  have h1 : moves + 1 > moves_limit := by omega
  simp [runnerMoveBranch, cppSubstr, h5, h1]

theorem runner_draw_cap_witness :
    runnerMoveBranch ("move 11-15".toList) 299 =
      some ((("move 11-15".toList).drop 5).take 4, 300,
        some ("RESULT 1/2-1/2 {Draw}", 0)) :=
  runner_draw_cap ("move 11-15".toList) 299 (by decide) (by decide)

/-- C10: relaying an engine's move line forwards exactly
`line.substr(5, 4)`; for every move text longer than four characters the
forwarded token is the four-character truncation of the move text, which
differs from the full move text. -/
theorem runner_truncates_move (m : List Char) (moves : Nat)
    (h : 4 < m.length) :
    runnerMoveBranch ("move ".toList ++ m) moves =
      some (m.take 4, moves + 1,
        if moves + 1 > moves_limit then some ("RESULT 1/2-1/2 {Draw}", 0)
        else none) ∧
    (m.take 4).length = 4 ∧ m.take 4 ≠ m := by
  have hl : ("move ".toList).length = 5 := by decide
  have hlen : 5 ≤ ("move ".toList ++ m).length := by
    rw [List.length_append, hl]
    omega
  have hdrop : ("move ".toList ++ m).drop 5 = m := by
    conv_lhs => rw [← hl]
    exact List.drop_left _ _
  refine ⟨?_, ?_, ?_⟩
  · simp [runnerMoveBranch, cppSubstr, hlen, hdrop]
  · rw [List.length_take]
    omega
  · intro he
    have h2 := congrArg List.length he
    rw [List.length_take] at h2
    omega

/-! ## Mandatory capture (C1) -/

theorem mem_expandJumps_capture_ne_zero (b : Board) (isKing : Bool)
    (orig : Nat) :
    ∀ fuel s removed m, m ∈ expandJumps b isKing orig fuel s removed →
      m.capture ≠ 0 := by
  intro fuel
  induction fuel with
  | zero =>
    intro s removed m hm
    simp only [expandJumps] at hm
    split at hm
    · next hr =>
      rw [List.mem_singleton] at hm
      subst hm
      simpa using hr
    · simp at hm
  | succ n ih =>
    intro s removed m hm
    simp only [expandJumps] at hm
    split at hm
    · split at hm
      · next hr =>
        rw [List.mem_singleton] at hm
        subst hm
        simpa using hr
      · simp at hm
    · rw [List.mem_flatMap] at hm
      obtain ⟨et, _, hmm⟩ := hm
      split at hmm
      · rw [List.mem_singleton] at hmm
        subst hmm
        exact or_sq_ne_zero removed et.1
      · exact ih et.2 (removed ||| sq et.1) m hmm

theorem expandJumps_ne_nil_of_removed (b : Board) (isKing : Bool)
    (orig : Nat) :
    ∀ fuel s removed, removed ≠ 0 →
      expandJumps b isKing orig fuel s removed ≠ [] := by
  intro fuel
  induction fuel with
  | zero =>
    intro s removed hr
    have hb : (removed != 0) = true := by simpa using hr
    simp [expandJumps, hb]
  | succ n ih =>
    intro s removed hr
    have hb : (removed != 0) = true := by simpa using hr
    simp only [expandJumps]
    split
    · simp [hb]
    · next hjs =>
      obtain ⟨et, het⟩ : ∃ et, et ∈ immJumps b removed s isKing := by
        cases hj : immJumps b removed s isKing with
        | nil => rw [hj] at hjs; simp at hjs
        | cons a t => exact ⟨a, List.mem_cons_self a t⟩
      intro hflat
      rw [List.flatMap_eq_nil_iff] at hflat
      have h2 := hflat et het
      split at h2
      · simp at h2
      · exact ih et.2 (removed ||| sq et.1) (or_sq_ne_zero removed et.1) h2

theorem expandJumps_succ_ne_nil (b : Board) (isKing : Bool) (s fuel : Nat)
    (hjs : (immJumps b 0 s isKing).isEmpty = false) :
    expandJumps b isKing s (fuel + 1) s 0 ≠ [] := by
  simp only [expandJumps, hjs]
  obtain ⟨et, het⟩ : ∃ et, et ∈ immJumps b 0 s isKing := by
    cases hj : immJumps b 0 s isKing with
    | nil => rw [hj] at hjs; simp at hjs
    | cons a t => exact ⟨a, List.mem_cons_self a t⟩
  intro hflat
  rw [if_neg (by simp [hjs])] at hflat
  rw [List.flatMap_eq_nil_iff] at hflat
  have h2 := hflat et het
  split at h2
  · simp at h2
  · exact expandJumps_ne_nil_of_removed b isKing s fuel et.2 (0 ||| sq et.1)
      (or_sq_ne_zero 0 et.1) h2

theorem sq_or_ne_zero (s x : Nat) : sq s ||| x ≠ 0 := by
  intro h
  have h2 := congrArg (fun n => n.testBit s) h
  simp [Nat.testBit_lor, testBit_sq] at h2

theorem hasJump_filter_ne_nil (b : Board) (hj : hasJump b = true) :
    squares.filter (isJumper b) ≠ [] := by
  intro h
  unfold hasJump jumpers at hj
  rw [h] at hj
  simp at hj

/-- C1: whenever the side to move has at least one legal jump, the
legal-move generator returns exactly the jump-phase moves, and every
returned move is a jump (its capture mask is non-empty): no slide is
returned. -/
theorem mandatory_capture (b : Board) (hj : hasJump b = true) :
    generateMoves b = jumpMoves b ∧
    ∀ m ∈ generateMoves b, m.capture ≠ 0 := by
  have hfil := hasJump_filter_ne_nil b hj
  have hjm : jumpMoves b ≠ [] := by
    unfold jumpMoves
    cases hc : squares.filter (isJumper b) with
    | nil => exact absurd hc hfil
    | cons s rest =>
      intro hflat
      rw [List.flatMap_eq_nil_iff] at hflat
      have hmem : s ∈ squares.filter (isJumper b) := by
        rw [hc]
        exact List.mem_cons_self s rest
      have hs : isJumper b s = true := (List.mem_filter.mp hmem).2
      have hjs : (immJumps b 0 s ((moverKings b).testBit s)).isEmpty = false := by
        unfold isJumper at hs
        cases hI : (immJumps b 0 s ((moverKings b).testBit s)).isEmpty
        · rfl
        · rw [hI] at hs
          simp at hs
      have h2 := hflat s (List.mem_cons_self s rest)
      exact expandJumps_succ_ne_nil b ((moverKings b).testBit s) s 32 hjs h2
  have hgen : generateMoves b = jumpMoves b := by
    unfold generateMoves
    rw [if_neg]
    rw [List.isEmpty_eq_false.mpr hjm]
    simp
  refine ⟨hgen, ?_⟩
  intro m hm
  rw [hgen] at hm
  unfold jumpMoves at hm
  rw [List.mem_flatMap] at hm
  obtain ⟨s, _, hme⟩ := hm
  exact mem_expandJumps_capture_ne_zero b ((moverKings b).testBit s) s 33 s 0 m hme

theorem mandatory_capture_witness :
    hasJump ⟨sq 13, sq 17, 0, 0, false⟩ = true ∧
    (generateMoves ⟨sq 13, sq 17, 0, 0, false⟩ =
        jumpMoves ⟨sq 13, sq 17, 0, 0, false⟩ ∧
      ∀ m ∈ generateMoves ⟨sq 13, sq 17, 0, 0, false⟩, m.capture ≠ 0) :=
  ⟨by decide, mandatory_capture ⟨sq 13, sq 17, 0, 0, false⟩ (by decide)⟩

/-! ## make/unmake round-trip (C2) -/

theorem land_sq_eq_zero (k s : Nat) (h : k.testBit s = false) :
    k &&& sq s = 0 := by
  by_contra hne
  have h2 := (land_sq_ne_zero_iff k s).mp hne
  rw [h] at h2
  exact Bool.noConfusion h2

theorem disj_testBit (x y i : Nat) (h : x &&& y = 0) (hy : y.testBit i = true) :
    x.testBit i = false := by
  have h2 := congrArg (fun n => n.testBit i) h
  simp only [Nat.testBit_land, Nat.zero_testBit] at h2
  rw [hy] at h2
  cases hx : x.testBit i
  · rfl
  · rw [hx] at h2
    exact Bool.noConfusion h2

theorem or_bdiff_cancel (k d : Nat) (hkd : k.testBit d = false) :
    bdiff (k ||| sq d) (sq d) = k := by
  apply Nat.eq_of_testBit_eq
  intro i
  simp only [testBit_bdiff, Nat.testBit_lor, testBit_sq]
  by_cases h : d = i
  · subst h
    simp [hkd]
  · simp [h]

theorem pieces_roundtrip (p s d : Nat) (hs : p.testBit s = true)
    (hd : p.testBit d = false) :
    bdiff (bdiff p (sq s) ||| sq d) (sq d) ||| sq s = p := by
  apply Nat.eq_of_testBit_eq
  intro i
  simp only [testBit_bdiff, Nat.testBit_lor, testBit_sq]
  by_cases h1 : s = i <;> by_cases h2 : d = i
  · subst h1
    rw [h2] at hd
    rw [hs] at hd
    exact Bool.noConfusion hd
  · subst h1
    simp [h2, hs]
  · subst h2
    simp [h1, hd]
  · simp [h1, h2]

theorem kings_roundtrip (k s d : Nat) (cr : Bool)
    (hkd : k.testBit d = false) (hcr : cr = true → k.testBit s = false) :
    unmakeKings (makeKings k (sq s) (sq d) cr) (sq s) (sq d) cr = k := by
  cases cr with
  | true =>
    have hz : k &&& sq s = 0 := land_sq_eq_zero k s (hcr rfl)
    simp only [makeKings, unmakeKings, hz]
    simp only [bne_self_eq_false, Bool.false_eq_true, if_false, if_true]
    exact or_bdiff_cancel k d hkd
  | false =>
    cases hks : k.testBit s with
    | true =>
      have hnz : ((k &&& sq s) != 0) = true := by
        simpa [bne_iff_ne] using (land_sq_ne_zero_iff k s).mpr hks
      have htd : (((bdiff k (sq s) ||| sq d) &&& sq d) != 0) = true := by
        have : (bdiff k (sq s) ||| sq d).testBit d = true := by
          simp [Nat.testBit_lor, testBit_sq]
        simpa [bne_iff_ne] using (land_sq_ne_zero_iff _ d).mpr this
      simp only [makeKings, unmakeKings, hnz, htd, if_true, Bool.false_eq_true,
        if_false]
      exact pieces_roundtrip k s d hks hkd
    | false =>
      have hz : k &&& sq s = 0 := land_sq_eq_zero k s hks
      have hzd : k &&& sq d = 0 := land_sq_eq_zero k d hkd
      simp only [makeKings, unmakeKings, hz, hzd, bne_self_eq_false,
        Bool.false_eq_true, if_false]

theorem jumpStep_some (b : Board) (removed s : Nat) (d : Int × Int)
    (e t : Nat) (h : jumpStep b removed s d = some (e, t)) :
    (enemyPieces b).testBit e = true ∧ removed.testBit e = false ∧
      ((occupied b).testBit t = false ∨ removed.testBit t = true) := by
  unfold jumpStep at h
  split at h
  · exact Option.noConfusion h
  · split at h
    · exact Option.noConfusion h
    · split at h
      · next hcond =>
        simp only [Option.some.injEq, Prod.mk.injEq] at h
        obtain ⟨rfl, rfl⟩ := h
        simp only [Bool.and_eq_true, emptyDuring, Bool.or_eq_true,
          Bool.not_eq_true'] at hcond
        exact ⟨hcond.1.1, hcond.1.2, hcond.2⟩
      · exact Option.noConfusion h

theorem expandJumps_facts (b : Board) (isKing : Bool) (orig : Nat) :
    ∀ fuel s removed m,
      removed &&& enemyPieces b = removed →
      (removed ≠ 0 →
        ((occupied b).testBit s = false ∨ removed.testBit s = true)) →
      m ∈ expandJumps b isKing orig fuel s removed →
      m.orig = sq orig ∧
      m.capture &&& enemyPieces b = m.capture ∧
      (∃ d, m.dest = sq d ∧
        ((occupied b).testBit d = false ∨ m.capture.testBit d = true)) ∧
      (m.will_crown = true → isKing = false) := by
  intro fuel
  induction fuel with
  | zero =>
    intro s removed m hsub hemp hm
    simp only [expandJumps] at hm
    split at hm
    · next hr =>
      rw [List.mem_singleton] at hm
      subst hm
      have hrne : removed ≠ 0 := by simpa using hr
      refine ⟨rfl, hsub, ⟨s, rfl, hemp hrne⟩, ?_⟩
      intro hw
      simp only [mkJumpMove, Bool.and_eq_true, Bool.not_eq_true'] at hw
      exact hw.1
    · exact absurd hm (List.not_mem_nil m)
  | succ n ih =>
    intro s removed m hsub hemp hm
    simp only [expandJumps] at hm
    split at hm
    · split at hm
      · next hr =>
        rw [List.mem_singleton] at hm
        subst hm
        have hrne : removed ≠ 0 := by simpa using hr
        refine ⟨rfl, hsub, ⟨s, rfl, hemp hrne⟩, ?_⟩
        intro hw
        simp only [mkJumpMove, Bool.and_eq_true, Bool.not_eq_true'] at hw
        exact hw.1
      · exact absurd hm (List.not_mem_nil m)
    · rw [List.mem_flatMap] at hm
      obtain ⟨et, het, hmm⟩ := hm
      unfold immJumps at het
      obtain ⟨dd, _, hstep⟩ := List.mem_filterMap.mp het
      obtain ⟨he1, _, he3⟩ := jumpStep_some b removed s dd et.1 et.2 hstep
      have hsub2 : (removed ||| sq et.1) &&& enemyPieces b =
          removed ||| sq et.1 := sub_or_single removed (enemyPieces b) et.1 hsub he1
      have hemp2 : (occupied b).testBit et.2 = false ∨
          (removed ||| sq et.1).testBit et.2 = true := by
        rcases he3 with h | h
        · exact Or.inl h
        · exact Or.inr (by simp [Nat.testBit_lor, h])
      split at hmm
      · next hcrown =>
        rw [List.mem_singleton] at hmm
        subst hmm
        have hk : isKing = false := by
          revert hcrown
          cases isKing <;> simp
        exact ⟨rfl, hsub2, ⟨et.2, rfl, hemp2⟩, fun _ => hk⟩
      · exact ih et.2 (removed ||| sq et.1) m hsub2 (fun _ => hemp2) hmm

theorem slideMoves_facts (b : Board) (m : Move) (hm : m ∈ slideMoves b) :
    ∃ s t, m.orig = sq s ∧ (moverPieces b).testBit s = true ∧
      m.dest = sq t ∧ (occupied b).testBit t = false ∧
      m.capture = 0 ∧
      (m.will_crown = true → (moverKings b).testBit s = false) := by
  unfold slideMoves at hm
  rw [List.mem_flatMap] at hm
  obtain ⟨s, _, hmm⟩ := hm
  split at hmm
  · next hp =>
    rw [List.mem_filterMap] at hmm
    obtain ⟨d, _, hsome⟩ := hmm
    split at hsome
    · exact Option.noConfusion hsome
    · rename_i t heq
      split at hsome
      · next hocc =>
        rw [Option.some_inj] at hsome
        subst hsome
        refine ⟨s, t, rfl, hp, rfl, by simpa using hocc, rfl, ?_⟩
        intro hw
        simp only [Bool.and_eq_true, Bool.not_eq_true'] at hw
        exact hw.1
      · exact Option.noConfusion hsome
  · exact absurd hmm (List.not_mem_nil m)

theorem generateMoves_facts (b : Board) (m : Move) (hm : m ∈ generateMoves b) :
    ∃ s t, m.orig = sq s ∧ (moverPieces b).testBit s = true ∧
      m.dest = sq t ∧
      ((occupied b).testBit t = false ∨
        (m.capture.testBit t = true ∧
          m.capture &&& enemyPieces b = m.capture)) ∧
      (m.will_crown = true → (moverKings b).testBit s = false) := by
  simp only [generateMoves] at hm
  split at hm
  · obtain ⟨s, t, h1, h2, h3, h4, _, h6⟩ := slideMoves_facts b m hm
    exact ⟨s, t, h1, h2, h3, Or.inl h4, h6⟩
  · unfold jumpMoves at hm
    rw [List.mem_flatMap] at hm
    obtain ⟨s, hsmem, hme⟩ := hm
    have hs : isJumper b s = true := (List.mem_filter.mp hsmem).2
    have hp : (moverPieces b).testBit s = true := by
      unfold isJumper at hs
      simp only [Bool.and_eq_true] at hs
      exact hs.1
    obtain ⟨h1, h2, ⟨t, h3, h4⟩, h5⟩ :=
      expandJumps_facts b ((moverKings b).testBit s) s 33 s 0 m
        (by simp) (fun h => absurd rfl h) hme
    refine ⟨s, t, h1, hp, h3, ?_, h5⟩
    rcases h4 with h | h
    · exact Or.inl h
    · exact Or.inr ⟨h, h2⟩

/-- C2: for every position satisfying the board invariants and every
move the generator deems legal there, making the move and then unmaking
it restores the position bit-exactly — all four bitboards and the
side-to-move bit. -/
theorem make_unmake_roundtrip (b : Board) (m : Move) (hinv : b.inv)
    (hm : m ∈ generateMoves b) :
    unmakeMove (makeMove b m) m = b := by
  obtain ⟨s, t, ho, hps, hdst, hdo, hwc⟩ := generateMoves_facts b m hm
  obtain ⟨bb, bw, bk, wk, side⟩ := b
  obtain ⟨hdisj, hbk, hwk⟩ := hinv
  cases side with
  | true =>
    replace hps : bb.testBit s = true := hps
    replace hwc : m.will_crown = true → bk.testBit s = false := hwc
    replace hdo : (bb ||| bw).testBit t = false ∨
        (m.capture.testBit t = true ∧ m.capture &&& bw = m.capture) := hdo
    have hbd : bb.testBit t = false := by
      rcases hdo with h | ⟨hc1, hc2⟩
      · cases hb : bb.testBit t
        · rfl
        · rw [Nat.testBit_lor, hb] at h
          exact Bool.noConfusion h
      · exact disj_testBit bb bw t hdisj (sub_testBit m.capture bw t hc2 hc1)
    have hkd : bk.testBit t = false := by
      cases hkk : bk.testBit t
      · rfl
      · have h2 := sub_testBit bk bb t hbk hkk
        rw [hbd] at h2
        exact Bool.noConfusion h2
    show (⟨bdiff (bdiff bb m.orig ||| m.dest) m.dest ||| m.orig,
        (bw ^^^ m.capture) ^^^ m.capture,
        unmakeKings (makeKings bk m.orig m.dest m.will_crown)
          m.orig m.dest m.will_crown,
        (wk ^^^ m.capture) ^^^ m.capture, true⟩ : Board) =
      ⟨bb, bw, bk, wk, true⟩
    simp only [Board.mk.injEq]
    refine ⟨?_, xor_xor_cancel bw m.capture, ?_,
      xor_xor_cancel wk m.capture, trivial⟩
    · rw [ho, hdst]
      exact pieces_roundtrip bb s t hps hbd
    · rw [ho, hdst]
      exact kings_roundtrip bk s t m.will_crown hkd hwc
  | false =>
    replace hps : bw.testBit s = true := hps
    replace hwc : m.will_crown = true → wk.testBit s = false := hwc
    replace hdo : (bb ||| bw).testBit t = false ∨
        (m.capture.testBit t = true ∧ m.capture &&& bb = m.capture) := hdo
    have hwd : bw.testBit t = false := by
      rcases hdo with h | ⟨hc1, hc2⟩
      · cases hw2 : bw.testBit t
        · rfl
        · rw [Nat.testBit_lor, hw2] at h
          simp at h
      · have hbt := sub_testBit m.capture bb t hc2 hc1
        cases hwt : bw.testBit t
        · rfl
        · have h2 := congrArg (fun n => n.testBit t) hdisj
          simp only [Nat.testBit_land, Nat.zero_testBit] at h2
          rw [hbt, hwt] at h2
          exact Bool.noConfusion h2
    have hkd : wk.testBit t = false := by
      cases hkk : wk.testBit t
      · rfl
      · have h2 := sub_testBit wk bw t hwk hkk
        rw [hwd] at h2
        exact Bool.noConfusion h2
    show (⟨(bb ^^^ m.capture) ^^^ m.capture,
        bdiff (bdiff bw m.orig ||| m.dest) m.dest ||| m.orig,
        (bk ^^^ m.capture) ^^^ m.capture,
        unmakeKings (makeKings wk m.orig m.dest m.will_crown)
          m.orig m.dest m.will_crown, false⟩ : Board) =
      ⟨bb, bw, bk, wk, false⟩
    simp only [Board.mk.injEq]
    refine ⟨xor_xor_cancel bb m.capture, ?_,
      xor_xor_cancel bk m.capture, ?_, trivial⟩
    · rw [ho, hdst]
      exact pieces_roundtrip bw s t hps hwd
    · rw [ho, hdst]
      exact kings_roundtrip wk s t m.will_crown hkd hwc

theorem make_unmake_roundtrip_witness :
    (Board.inv ⟨sq 8, 0, 0, 0, true⟩) ∧
    (⟨sq 8, sq 12, 0, false, false⟩ : Move) ∈
      generateMoves ⟨sq 8, 0, 0, 0, true⟩ ∧
    unmakeMove (makeMove ⟨sq 8, 0, 0, 0, true⟩ ⟨sq 8, sq 12, 0, false, false⟩)
        ⟨sq 8, sq 12, 0, false, false⟩ =
      ⟨sq 8, 0, 0, 0, true⟩ :=
  ⟨by decide, by decide,
    make_unmake_roundtrip ⟨sq 8, 0, 0, 0, true⟩ ⟨sq 8, sq 12, 0, false, false⟩
      (by decide) (by decide)⟩

theorem runner_truncates_move_witness :
    runnerMoveBranch ("move ".toList ++ "11-15".toList) 0 =
      some ("11-15".toList.take 4, 0 + 1,
        if 0 + 1 > moves_limit then some ("RESULT 1/2-1/2 {Draw}", 0)
        else none) ∧
    ("11-15".toList.take 4).length = 4 ∧
    "11-15".toList.take 4 ≠ "11-15".toList :=
  runner_truncates_move ("11-15".toList) 0 (by decide)

end Checkers
